import Mathlib

/-!
Verification of the JPEG baseline encoding pipeline of
`jpeg_encoding_tutorial.ipynb` against its natural-language specification.

The notebook's numeric kernels are embedded shallowly:

* `np.int8` / `np.uint8` values are modelled as `Int` together with the
  explicit wrapping maps `int8ofInt` / `uint8wrap` (two's-complement
  wrap modulo 2^8), since numpy integer casts and arithmetic wrap.
* 8x8 arrays are modelled as functions `Nat → Nat → _` (only indices
  0..7 are ever accessed, mirroring the numpy indexing in the source).
* float64 arithmetic in the colour transform and the quantizer is
  modelled by exact rationals (every constant in the source is an exact
  decimal, and the claims under scrutiny are about rounding/ranges, not
  about last-ulp float effects); the DCT is modelled over the reals.
* `np.round` rounds to nearest with ties to even (IEEE rint), which is
  `roundHalfEven` below.
* the bit-counting `while` loop of the run-length encoder is embedded
  as the fuelled loop `sizeLoop`; the loop diverges exactly when its
  argument is negative (which happens precisely for amplitude -128,
  because `np.abs` wraps -128 to -128 and the arithmetic right shift
  of a negative int8 never reaches 0), and the encoder `Option` result
  `none` models that divergence.
-/

namespace JPEG

/-! ### Two's-complement 8-bit machine integers -/

/-- Wrap an integer into the signed 8-bit range [-128, 127], i.e. the
value an `np.int8` cast produces (two's complement, modulo 256). -/
def int8ofInt (x : ℤ) : ℤ := (x + 128) % 256 - 128

/-- Wrap an integer into the unsigned 8-bit range [0, 255] (`np.uint8`). -/
def uint8wrap (x : ℤ) : ℤ := x % 256

theorem int8ofInt_eq_self {x : ℤ} (h1 : -128 ≤ x) (h2 : x ≤ 127) :
    int8ofInt x = x := by
  unfold int8ofInt
  omega

theorem int8ofInt_twosComplement (x : ℤ) :
    int8ofInt x = if x % 256 < 128 then x % 256 else x % 256 - 256 := by
  unfold int8ofInt
  split <;> omega

theorem int8ofInt_add_left (x y : ℤ) :
    int8ofInt (int8ofInt x + y) = int8ofInt (x + y) := by
  unfold int8ofInt
  omega

/-! ### The zig-zag access pattern

Source (notebook cell "implement zig-zag access pattern"):

    zig_zag_index = []
    left_right = False
    start = 0
    for length in range(15):
        entry = []
        if length >= 8:
            start += 1
        for index_1 in range(start, length+1-start):
            index_2 = length - index_1
            if left_right:
                entry.append((index_1, index_2))
            else:
                entry.append((index_2, index_1))
        zig_zag_index.append(entry)
        left_right = not left_right

    zig_zag_flat = [index_pair for diagonal in zig_zag_index for index_pair in diagonal]
-/

/-- One diagonal of the zig-zag pattern: the body of the inner `for index_1
in range(start, length+1-start)` loop of the source. -/
def zigZagDiag (left_right : Bool) (start length : ℕ) : List (ℕ × ℕ) :=
  (List.range' start (length + 1 - start - start)).map fun index_1 =>
    if left_right then (index_1, length - index_1) else (length - index_1, index_1)

/-- The outer `for length in range(15)` loop of the source, carrying the
mutable `left_right` and `start` variables. -/
def zigZagGo : ℕ → ℕ → Bool → ℕ → List (List (ℕ × ℕ))
  | 0, _, _, _ => []
  | rem + 1, length, lr, start0 =>
    let start := if 8 ≤ length then start0 + 1 else start0
    zigZagDiag lr start length :: zigZagGo rem (length + 1) (!lr) start

/-- `zig_zag_index` of the source: the list of anti-diagonals. -/
def zig_zag_index : List (List (ℕ × ℕ)) := zigZagGo 15 0 false 0

/-- `zig_zag_flat` of the source: the flattened zig-zag permutation. -/
def zig_zag_flat : List (ℕ × ℕ) := zig_zag_index.flatten

/-- Position of cell `(r, c)` in the zig-zag sequence. -/
def zigZagPos (r c : ℕ) : ℕ := zig_zag_flat.indexOf (r, c)

/-- Flatten an 8x8 block along the zig-zag order. -/
def zigZagApply (B : ℕ → ℕ → ℤ) : List ℤ :=
  zig_zag_flat.map fun p => B p.1 p.2

/-- Inverse of `zigZagApply`: rebuild a block from a 64-length sequence. -/
def zigZagUnflatten (l : List ℤ) (r c : ℕ) : ℤ :=
  l.getD (zigZagPos r c) 0

/-! ### The run-length / symbol encoder

Source (`apply_Huffman_encoding`):

    output = []
    runlength = 0
    overflow_counter = 0
    for index_pair_id in range(1, len(zig_zag_flat)):
        index_pair = zig_zag_flat[index_pair_id]
        amplitude = B_int[index_pair]
        if B_int[index_pair] == 0:
            runlength += 1
            if runlength == 15:
                overflow_counter += 1
                runlength = 0
        else:
            size = 0
            number = np.abs(amplitude)
            while (number):
                size += number & 1
                number >>= 1
            for i in range(overflow_counter):
                output.append(np.int8(runlength)<<4)
                output.append(np.int8(0))
            output.append( (np.int8(runlength)<<4) + np.int8(size) )
            output.append(np.int8(amplitude))
            runlength = 0
    output.append(np.int8(0))
    return np.int8(B_int[0,0]), np.array(output, dtype=np.int8)
-/

/-- `np.abs` on an int8 value: the absolute value wrapped back into int8
(so `npAbs8 (-128) = -128`, since 128 wraps to -128). -/
def npAbs8 (a : ℤ) : ℤ := int8ofInt (a.natAbs : ℤ)

/-- The `while (number): size += number & 1; number >>= 1` loop of the
source, with explicit fuel.  `number & 1` is `number % 2` and the
arithmetic right shift `number >>= 1` is floor division `number / 2`
(Lean's `Int` division is Euclidean, which agrees with floor division
for the positive divisor 2).  For a negative `number` the loop never
reaches 0 (see `sizeLoop_neg`), i.e. the source diverges there. -/
def sizeLoop : ℕ → ℤ → ℕ → Option ℕ
  | 0, number, size => if number = 0 then some size else none
  | fuel + 1, number, size =>
    if number = 0 then some size
    else sizeLoop fuel (number / 2) (size + (number % 2).toNat)

/-- Number of set bits of a natural number (what the source's loop
computes when it terminates, see `sizeLoop_eq_bitCount`). -/
def bitCount : ℕ → ℕ
  | 0 => 0
  | n + 1 => (n + 1) % 2 + bitCount ((n + 1) / 2)

/-- The "size" computation of the source for one amplitude: the result
of the bit-count loop on `np.abs(amplitude)`.  Fuel 8 is enough for
every int8 value on which the loop terminates (at most 7 halvings are
needed for magnitudes up to 127); for amplitude -128 the loop runs on
the negative number -128 and diverges (`sizeLoop_neg`), which this
function reports as `none` independently of the fuel. -/
def acSize (amplitude : ℤ) : Option ℕ := sizeLoop 8 (npAbs8 amplitude) 0

/-- State of the encoder loop: the mutable `runlength`, `overflow_counter`
and `output` variables of the source. -/
structure EncState where
  runlength : ℕ
  overflow : ℕ
  output : List ℤ
  deriving DecidableEq, Repr

/-- The bytes appended by `for i in range(overflow_counter)`: `overflow`
copies of the pair `(np.int8(runlength)<<4, 0)`. -/
def overflowBytes (runlength overflow : ℕ) : List ℤ :=
  (List.replicate overflow [int8ofInt (runlength * 16), (0 : ℤ)]).flatten

/-- One iteration of the encoder's `for index_pair_id` loop, processing
one AC amplitude.  Returns `none` when the bit-count loop diverges
(amplitude -128). -/
def huffStep (st : EncState) (a : ℤ) : Option EncState :=
  if a = 0 then
    if st.runlength + 1 = 15 then some ⟨0, st.overflow + 1, st.output⟩
    else some ⟨st.runlength + 1, st.overflow, st.output⟩
  else
    match acSize a with
    | none => none
    | some size =>
      some ⟨0, st.overflow,
        st.output ++ overflowBytes st.runlength st.overflow ++
          [int8ofInt (int8ofInt (st.runlength * 16) + size), int8ofInt a]⟩

/-- The encoder's loop over the 63 AC positions. -/
def encodeLoop : EncState → List ℤ → Option EncState
  | st, [] => some st
  | st, a :: rest =>
    match huffStep st a with
    | none => none
    | some st' => encodeLoop st' rest

/-- `apply_Huffman_encoding` of the source: DC value (position (0,0))
plus the AC symbol stream terminated by the end-of-block byte 0.
The input block is scanned through `zig_zag_flat`, skipping position 0. -/
def apply_Huffman_encoding (B : ℕ → ℕ → ℤ) : Option (ℤ × List ℤ) :=
  match encodeLoop ⟨0, 0, []⟩ ((zig_zag_flat.drop 1).map fun p => B p.1 p.2) with
  | none => none
  | some st => some (int8ofInt (B 0 0), st.output ++ [0])

/-! ### Semantics of the bit-count loop -/

/-- On a negative `number` the source's bit-count loop never terminates:
no amount of fuel makes `sizeLoop` return a value, because the
arithmetic right shift keeps the number negative forever. -/
theorem sizeLoop_neg : ∀ (fuel : ℕ) (n : ℤ) (s : ℕ), n < 0 →
    sizeLoop fuel n s = none := by
  intro fuel
  induction fuel with
  | zero =>
    intro n s hn
    simp only [sizeLoop]
    rw [if_neg (by omega)]
  | succ f ih =>
    intro n s hn
    simp only [sizeLoop]
    rw [if_neg (by omega)]
    exact ih (n / 2) _ (by omega)

theorem bitCount_eq_of_ne_zero : ∀ {n : ℕ}, n ≠ 0 →
    bitCount n = n % 2 + bitCount (n / 2)
  | n + 1, _ => by simp only [bitCount]

/-- On a nonnegative `number` below `2 ^ fuel` the loop terminates and
computes the number of set bits. -/
theorem sizeLoop_eq_bitCount : ∀ (fuel : ℕ) (n : ℕ) (s : ℕ), n < 2 ^ fuel →
    sizeLoop fuel (n : ℤ) s = some (s + bitCount n) := by
  intro fuel
  induction fuel with
  | zero =>
    intro n s hn
    interval_cases n
    simp [sizeLoop, bitCount]
  | succ f ih =>
    intro n s hn
    by_cases h0 : n = 0
    · subst h0; simp [sizeLoop, bitCount]
    · simp only [sizeLoop]
      rw [if_neg (by exact_mod_cast h0)]
      have hdiv : (n : ℤ) / 2 = ((n / 2 : ℕ) : ℤ) := by
        rw [Int.ofNat_ediv]; norm_num
      have hmod : ((n : ℤ) % 2).toNat = n % 2 := by
        rw [show ((2:ℤ)) = ((2:ℕ):ℤ) from rfl, ← Int.ofNat_emod, Int.toNat_natCast]
      rw [hdiv, hmod, ih (n / 2) (s + n % 2) (by
        have h2 : (2:ℕ) ^ (f+1) = 2 * 2 ^ f := by ring
        omega)]
      rw [bitCount_eq_of_ne_zero h0]
      ring_nf

theorem npAbs8_of_range {a : ℤ} (h1 : -128 < a) (h2 : a ≤ 127) :
    npAbs8 a = (a.natAbs : ℤ) := by
  unfold npAbs8
  exact int8ofInt_eq_self (by omega) (by omega)

/-- For every int8 amplitude except -128, the size computation terminates
and equals the popcount of the magnitude. -/
theorem acSize_eq_bitCount {a : ℤ} (h1 : -128 < a) (h2 : a ≤ 127) :
    acSize a = some (bitCount a.natAbs) := by
  unfold acSize
  rw [npAbs8_of_range h1 h2]
  simpa using sizeLoop_eq_bitCount 8 a.natAbs 0 (by omega)

/-- `np.abs` wraps -128 to -128, so the loop argument is negative. -/
theorem npAbs8_neg128 : npAbs8 (-128) = -128 := by decide

/-- At amplitude -128 the loop never terminates, whatever the fuel. -/
theorem sizeLoop_diverges_neg128 (fuel : ℕ) (s : ℕ) :
    sizeLoop fuel (npAbs8 (-128)) s = none := by
  rw [npAbs8_neg128]
  exact sizeLoop_neg fuel (-128) s (by omega)

/-! ### Properties of the zig-zag permutation -/

/-- Modelled from the spec's words (section 4.6), for the refinement
comparison only: anti-diagonal `k` of the 8x8 grid holds the cells with
coordinate sum `k`; it is traversed top-to-bottom (row ascending) on odd
diagonals and bottom-to-top (row descending) on even ones. -/
def specDiag (k : ℕ) : List (ℕ × ℕ) :=
  let topToBottom := (List.range 8).filterMap fun r =>
    if r ≤ k ∧ k - r < 8 then some (r, k - r) else none
  if k % 2 = 1 then topToBottom else topToBottom.reverse

theorem zig_zag_flat_length : zig_zag_flat.length = 64 := by decide

theorem zig_zag_flat_nodup : zig_zag_flat.Nodup := by decide

/-- Looking up the position of any cell and reading the permutation back
returns that cell: `zig_zag_flat` hits all 64 cells. -/
theorem zig_zag_flat_get (r c : Fin 8) :
    zig_zag_flat[zigZagPos r.val c.val]? = some (r.val, c.val) := by
  revert r c
  decide

/-- Zig-zag flattening followed by the inverse permutation restores every
cell of the block. -/
theorem zigZag_roundtrip (B : ℕ → ℕ → ℤ) (r c : Fin 8) :
    zigZagUnflatten (zigZagApply B) r c = B r c := by
  unfold zigZagUnflatten zigZagApply
  rw [List.getD_eq_getElem?_getD, List.getElem?_map, zig_zag_flat_get r c]
  rfl

/-! ### Shape of one encoder step -/

/-- The overflow counter never decreases: in particular it is not reset
when the pending overflow pairs are emitted. -/
theorem huffStep_overflow_mono (st : EncState) (a : ℤ) (st' : EncState)
    (h : huffStep st a = some st') : st.overflow ≤ st'.overflow := by
  unfold huffStep at h
  by_cases ha : a = 0
  · rw [if_pos ha] at h
    split_ifs at h <;> (cases h; simp)
  · rw [if_neg ha] at h
    rcases hs : acSize a with _ | s <;> rw [hs] at h
    · cases h
    · cases h
      simp

/-- On a nonzero amplitude whose size computation terminates, the step
appends all `overflow` pending pairs (tagged with the current run length)
and then the symbol pair, leaving the counter untouched. -/
theorem huffStep_nonzero (st : EncState) (a : ℤ) (s : ℕ)
    (ha : a ≠ 0) (hs : acSize a = some s) :
    huffStep st a = some ⟨0, st.overflow,
      st.output ++ overflowBytes st.runlength st.overflow ++
        [int8ofInt (int8ofInt (st.runlength * 16) + s), int8ofInt a]⟩ := by
  unfold huffStep
  rw [if_neg ha, hs]

/-- On the 15th consecutive zero the counter is incremented and the run
length reset, with no output. -/
theorem huffStep_fifteenth_zero (st : EncState) (h : st.runlength + 1 = 15) :
    huffStep st 0 = some ⟨0, st.overflow + 1, st.output⟩ := by
  unfold huffStep
  rw [if_pos rfl, if_pos h]

theorem bitCount_le : ∀ (k : ℕ) {n : ℕ}, n < 2 ^ k → bitCount n ≤ k := by
  intro k
  induction k with
  | zero =>
    intro n h
    interval_cases n
    simp [bitCount]
  | succ m ih =>
    intro n h
    by_cases h0 : n = 0
    · subst h0
      simp [bitCount]
    · rw [bitCount_eq_of_ne_zero h0]
      have h1 : n / 2 < 2 ^ m := by
        have h2 : (2:ℕ) ^ (m+1) = 2 * 2 ^ m := by ring
        omega
      have := ih h1
      omega

/-- Popcount of an int8 magnitude is at most 7. -/
theorem bitCount_le_seven {n : ℕ} (h : n ≤ 127) : bitCount n ≤ 7 :=
  bitCount_le 7 (by omega)

/-- The low nibble of the stored symbol-1 byte recovers the size field. -/
theorem symbol1_low_nibble (r s : ℕ) (hs : s < 16) :
    int8ofInt (int8ofInt ((r:ℤ) * 16) + (s:ℤ)) % 16 = s := by
  rw [int8ofInt_add_left]
  unfold int8ofInt
  omega

/-! ### The quantizer

Source (`perform_quantization_on_block`):

    B_int = np.empty((8,8), dtype=np.int8)
    for i_v in range(8):
        for i_u in range(8):
            B_int[i_v, i_u] = np.int8( np.round( G_int[i_v, i_u] / Q[i_v, i_u] ) )
    return B_int

`np.round` rounds to the nearest integer with ties to even (IEEE rint).
-/

/-- Round to nearest, ties to even: the semantics of `np.round` with
`decimals=0`. -/
def roundHalfEven (q : ℚ) : ℤ :=
  if q - ⌊q⌋ < 1/2 then ⌊q⌋
  else if 1/2 < q - ⌊q⌋ then ⌊q⌋ + 1
  else if 2 ∣ ⌊q⌋ then ⌊q⌋ else ⌊q⌋ + 1

/-- Round to nearest, ties away from zero: the rounding the spec claims
(`round_half_away_from_zero`). -/
def roundHalfAwayFromZero (q : ℚ) : ℤ :=
  if 0 ≤ q then ⌊q + 1/2⌋ else ⌈q - 1/2⌉

/-- `perform_quantization_on_block` of the source, cellwise: divide by the
table entry, `np.round`, and cast to `np.int8` (which wraps). -/
def perform_quantization_on_block (G Q : ℕ → ℕ → ℚ) (v u : ℕ) : ℤ :=
  int8ofInt (roundHalfEven (G v u / Q v u))

theorem roundHalfEven_close (q : ℚ) : |q - (roundHalfEven q : ℚ)| ≤ 1/2 := by
  have hfl : (⌊q⌋ : ℚ) ≤ q := Int.floor_le q
  have hfu : q < ⌊q⌋ + 1 := Int.lt_floor_add_one q
  unfold roundHalfEven
  rcases lt_trichotomy (q - ⌊q⌋) (1/2) with h | h | h
  · rw [if_pos h, abs_le]
    constructor <;> linarith
  · rw [if_neg (by linarith), if_neg (by linarith)]
    split <;> (rw [abs_le]; constructor <;> push_cast <;> linarith)
  · rw [if_neg (by linarith), if_pos h, abs_le]
    constructor <;> push_cast <;> linarith

/-- Away from exact ties, round-half-even and round-half-away-from-zero
agree. -/
theorem roundHalfEven_eq_away_of_ne_tie {q : ℚ} (h : q - ⌊q⌋ ≠ 1/2) :
    roundHalfEven q = roundHalfAwayFromZero q := by
  have hfl : (⌊q⌋ : ℚ) ≤ q := Int.floor_le q
  have hfu : q < ⌊q⌋ + 1 := Int.lt_floor_add_one q
  unfold roundHalfEven roundHalfAwayFromZero
  rcases lt_trichotomy (q - ⌊q⌋) (1/2) with hc | hc | hc
  · rw [if_pos hc]
    split
    · refine (Int.floor_eq_iff.mpr ⟨by push_cast; linarith, by push_cast; linarith⟩).symm
    · refine (Int.ceil_eq_iff.mpr ⟨by push_cast; linarith, by push_cast; linarith⟩).symm
  · exact absurd hc h
  · rw [if_neg (by linarith), if_pos hc]
    split
    · refine (Int.floor_eq_iff.mpr ⟨by push_cast; linarith, by push_cast; linarith⟩).symm
    · refine (Int.ceil_eq_iff.mpr ⟨by push_cast; linarith, by push_cast; linarith⟩).symm

/-- At an exact tie, round-half-even picks the even neighbour. -/
theorem roundHalfEven_even_of_tie {q : ℚ} (h : q - ⌊q⌋ = 1/2) :
    2 ∣ roundHalfEven q := by
  unfold roundHalfEven
  rw [if_neg (by rw [h]; norm_num), if_neg (by rw [h]; norm_num)]
  split
  · assumption
  · rcases Int.even_or_odd ⌊q⌋ with he | ho
    · exact absurd he.two_dvd (by assumption)
    · obtain ⟨k, hk⟩ := ho
      exact ⟨k + 1, by omega⟩

/-! ### The colour transform

Source (the `data_YCbCr` conversion loop):

    data_YCbCr[i_y, i_x, 0] = np.uint8(0.   + 0.299    * R + 0.587    * G + 0.114    * B)
    data_YCbCr[i_y, i_x, 1] = np.uint8(128. - 0.168736 * R - 0.331264 * G + 0.5      * B)
    data_YCbCr[i_y, i_x, 2] = np.uint8(128. + 0.5      * R - 0.418688 * G - 0.081312 * B)

The float64 affine map is modelled by exact rationals (all constants are
exact decimals) and the `np.uint8` cast by truncation toward zero
followed by the unsigned 8-bit wrap. -/

/-- Truncation toward zero of a real (float-to-integer C cast). -/
def truncFloat (q : ℚ) : ℤ := if 0 ≤ q then ⌊q⌋ else ⌈q⌉

/-- `np.uint8` applied to a float value: truncate toward zero, wrap mod 256. -/
def npUint8OfFloat (q : ℚ) : ℤ := uint8wrap (truncFloat q)

/-- The Y (luma) affine form, before the uint8 cast. -/
def Yraw (c1 c2 c3 : ℤ) : ℚ := 0 + 0.299 * c1 + 0.587 * c2 + 0.114 * c3

/-- The Cb (blue chroma) affine form, before the uint8 cast. -/
def Cbraw (c1 c2 c3 : ℤ) : ℚ := 128 - 0.168736 * c1 - 0.331264 * c2 + 0.5 * c3

/-- The Cr (red chroma) affine form, before the uint8 cast. -/
def Crraw (c1 c2 c3 : ℤ) : ℚ := 128 + 0.5 * c1 - 0.418688 * c2 - 0.081312 * c3

/-- Channel 0 of `data_YCbCr` for one pixel. -/
def dataYCbCr_Y (c1 c2 c3 : ℤ) : ℤ := npUint8OfFloat (Yraw c1 c2 c3)

/-- Channel 1 of `data_YCbCr` for one pixel. -/
def dataYCbCr_Cb (c1 c2 c3 : ℤ) : ℤ := npUint8OfFloat (Cbraw c1 c2 c3)

/-- Channel 2 of `data_YCbCr` for one pixel. -/
def dataYCbCr_Cr (c1 c2 c3 : ℤ) : ℤ := npUint8OfFloat (Crraw c1 c2 c3)

theorem truncFloat_of_nonneg {q : ℚ} (h : 0 ≤ q) : truncFloat q = ⌊q⌋ :=
  if_pos h

theorem uint8wrap_eq_self {x : ℤ} (h1 : 0 ≤ x) (h2 : x ≤ 255) :
    uint8wrap x = x := by
  unfold uint8wrap
  omega

/-- Floor of a rational in `[0, 256)` lies in `[0, 255]`. -/
theorem floor_mem_uint8 {q : ℚ} (h1 : 0 ≤ q) (h2 : q < 256) :
    0 ≤ ⌊q⌋ ∧ ⌊q⌋ ≤ 255 := by
  constructor
  · exact Int.le_floor.mpr (by exact_mod_cast h1)
  · have := Int.floor_lt.mpr (show q < ((256:ℤ):ℚ) by exact_mod_cast h2)
    omega

/-- Packaging of the per-channel colour bounds: a raw value in [0, 256)
truncates into [0, 255] and its uint8 conversion does not wrap. -/
theorem chanProps {q : ℚ} (h1 : 0 ≤ q) (h2 : q < 256) :
    0 ≤ truncFloat q ∧ truncFloat q ≤ 255 ∧ npUint8OfFloat q = truncFloat q := by
  have ht : truncFloat q = ⌊q⌋ := truncFloat_of_nonneg h1
  obtain ⟨hl, hu⟩ := floor_mem_uint8 h1 h2
  refine ⟨by rw [ht]; exact hl, by rw [ht]; exact hu, ?_⟩
  unfold npUint8OfFloat
  rw [ht]
  exact uint8wrap_eq_self hl hu

/-! ### The forward DCT

Source (`perform_DCT_on_block`):

    sqrt2_inv = 1.0 / np.sqrt(2)
    for i_v in range(8):
        for i_u in range(8):
            G_int[i_v, i_u] = 0.0
            for i_y in range(8):
                for i_x in range(8):
                    G_int[i_v, i_u] += (g_int[offset_y + i_y, offset_x + i_x] *
                                        np.cos((2. * i_x + 1) * i_u * np.pi / 16.) *
                                        np.cos((2. * i_y + 1) * i_v * np.pi / 16.))
            alpha_v = 1.0
            alpha_u = 1.0
            if i_v == 0:
                alpha_v = sqrt2_inv
            if i_u == 0:
                alpha_u = sqrt2_inv
            G_int[i_v, i_u] *= 1./4. * alpha_v * alpha_u

Modelled over the reals (float64 is a claim about rounding tolerance,
handled by the spec's own 1e-6 tolerance). -/

/-- The DCT normalisation factor: `1/sqrt 2` at frequency 0, else 1. -/
noncomputable def alpha (k : ℕ) : ℝ := if k = 0 then 1 / Real.sqrt 2 else 1

/-- `perform_DCT_on_block` of the source (offsets 0, i.e. one 8x8 block). -/
noncomputable def perform_DCT_on_block (g : ℕ → ℕ → ℝ) (v u : ℕ) : ℝ :=
  1/4 * alpha v * alpha u *
    ∑ y ∈ Finset.range 8, ∑ x ∈ Finset.range 8,
      g y x * Real.cos ((2 * (x:ℝ) + 1) * (u:ℝ) * Real.pi / 16) *
        Real.cos ((2 * (y:ℝ) + 1) * (v:ℝ) * Real.pi / 16)

theorem cosRedPos (a b : ℝ) (j : ℤ) (h : a = b + j * (2 * Real.pi)) :
    Real.cos a = Real.cos b := by
  rw [h, Real.cos_add_int_mul_two_pi]

theorem cosRedNeg (a b : ℝ) (j : ℤ) (h : a = -b + j * (2 * Real.pi)) :
    Real.cos a = Real.cos b := by
  rw [h, Real.cos_add_int_mul_two_pi, Real.cos_neg]

theorem cosRedPiSub (a b : ℝ) (j : ℤ) (h : a = Real.pi - b + j * (2 * Real.pi)) :
    Real.cos a = -Real.cos b := by
  rw [h, Real.cos_add_int_mul_two_pi, Real.cos_pi_sub]

theorem cosRedPiAdd (a b : ℝ) (j : ℤ) (h : a = Real.pi + b + j * (2 * Real.pi)) :
    Real.cos a = -Real.cos b := by
  rw [h, Real.cos_add_int_mul_two_pi,
    show Real.pi + b = Real.pi - (-b) from by ring, Real.cos_pi_sub, Real.cos_neg]

/-- The 1-D cosine sums at nonzero frequency vanish: for `1 ≤ u ≤ 7`,
`∑ x in 0..7, cos((2x+1) u π / 16) = 0`. -/
theorem cos_sum_eq_zero {u : ℕ} (h1 : 1 ≤ u) (h2 : u ≤ 7) :
    ∑ x ∈ Finset.range 8, Real.cos ((2 * (x:ℝ) + 1) * (u:ℝ) * Real.pi / 16) = 0 := by
  interval_cases u
  · simp only [Finset.sum_range_succ, Finset.sum_range_zero]
    push_cast
    ring_nf
    rw [show Real.cos (Real.pi * (9/16)) = -Real.cos (Real.pi * (7/16)) from
        cosRedPiSub _ _ 0 (by ring),
      show Real.cos (Real.pi * (11/16)) = -Real.cos (Real.pi * (5/16)) from
        cosRedPiSub _ _ 0 (by ring),
      show Real.cos (Real.pi * (13/16)) = -Real.cos (Real.pi * (3/16)) from
        cosRedPiSub _ _ 0 (by ring),
      show Real.cos (Real.pi * (15/16)) = -Real.cos (Real.pi * (1/16)) from
        cosRedPiSub _ _ 0 (by ring)]
    ring
  · simp only [Finset.sum_range_succ, Finset.sum_range_zero]
    push_cast
    ring_nf
    rw [show Real.cos (Real.pi * (5/8)) = -Real.cos (Real.pi * (3/8)) from
        cosRedPiSub _ _ 0 (by ring),
      show Real.cos (Real.pi * (7/8)) = -Real.cos (Real.pi * (1/8)) from
        cosRedPiSub _ _ 0 (by ring),
      show Real.cos (Real.pi * (9/8)) = -Real.cos (Real.pi * (1/8)) from
        cosRedPiAdd _ _ 0 (by ring),
      show Real.cos (Real.pi * (11/8)) = -Real.cos (Real.pi * (3/8)) from
        cosRedPiAdd _ _ 0 (by ring),
      show Real.cos (Real.pi * (13/8)) = Real.cos (Real.pi * (3/8)) from
        cosRedNeg _ _ 1 (by ring),
      show Real.cos (Real.pi * (15/8)) = Real.cos (Real.pi * (1/8)) from
        cosRedNeg _ _ 1 (by ring)]
    ring
  · simp only [Finset.sum_range_succ, Finset.sum_range_zero]
    push_cast
    ring_nf
    rw [show Real.cos (Real.pi * (9/16)) = -Real.cos (Real.pi * (7/16)) from
        cosRedPiSub _ _ 0 (by ring),
      show Real.cos (Real.pi * (15/16)) = -Real.cos (Real.pi * (1/16)) from
        cosRedPiSub _ _ 0 (by ring),
      show Real.cos (Real.pi * (21/16)) = -Real.cos (Real.pi * (5/16)) from
        cosRedPiAdd _ _ 0 (by ring),
      show Real.cos (Real.pi * (27/16)) = Real.cos (Real.pi * (5/16)) from
        cosRedNeg _ _ 1 (by ring),
      show Real.cos (Real.pi * (33/16)) = Real.cos (Real.pi * (1/16)) from
        cosRedPos _ _ 1 (by ring),
      show Real.cos (Real.pi * (39/16)) = Real.cos (Real.pi * (7/16)) from
        cosRedPos _ _ 1 (by ring),
      show Real.cos (Real.pi * (45/16)) = -Real.cos (Real.pi * (3/16)) from
        cosRedPiSub _ _ 1 (by ring)]
    ring
  · simp only [Finset.sum_range_succ, Finset.sum_range_zero]
    push_cast
    ring_nf
    rw [show Real.cos (Real.pi * (3/4)) = -Real.cos (Real.pi * (1/4)) from
        cosRedPiSub _ _ 0 (by ring),
      show Real.cos (Real.pi * (5/4)) = -Real.cos (Real.pi * (1/4)) from
        cosRedPiAdd _ _ 0 (by ring),
      show Real.cos (Real.pi * (7/4)) = Real.cos (Real.pi * (1/4)) from
        cosRedNeg _ _ 1 (by ring),
      show Real.cos (Real.pi * (9/4)) = Real.cos (Real.pi * (1/4)) from
        cosRedPos _ _ 1 (by ring),
      show Real.cos (Real.pi * (11/4)) = -Real.cos (Real.pi * (1/4)) from
        cosRedPiSub _ _ 1 (by ring),
      show Real.cos (Real.pi * (13/4)) = -Real.cos (Real.pi * (1/4)) from
        cosRedPiAdd _ _ 1 (by ring),
      show Real.cos (Real.pi * (15/4)) = Real.cos (Real.pi * (1/4)) from
        cosRedNeg _ _ 2 (by ring)]
    ring
  · simp only [Finset.sum_range_succ, Finset.sum_range_zero]
    push_cast
    ring_nf
    rw [show Real.cos (Real.pi * (15/16)) = -Real.cos (Real.pi * (1/16)) from
        cosRedPiSub _ _ 0 (by ring),
      show Real.cos (Real.pi * (25/16)) = Real.cos (Real.pi * (7/16)) from
        cosRedNeg _ _ 1 (by ring),
      show Real.cos (Real.pi * (35/16)) = Real.cos (Real.pi * (3/16)) from
        cosRedPos _ _ 1 (by ring),
      show Real.cos (Real.pi * (45/16)) = -Real.cos (Real.pi * (3/16)) from
        cosRedPiSub _ _ 1 (by ring),
      show Real.cos (Real.pi * (55/16)) = -Real.cos (Real.pi * (7/16)) from
        cosRedPiAdd _ _ 1 (by ring),
      show Real.cos (Real.pi * (65/16)) = Real.cos (Real.pi * (1/16)) from
        cosRedPos _ _ 2 (by ring),
      show Real.cos (Real.pi * (75/16)) = -Real.cos (Real.pi * (5/16)) from
        cosRedPiSub _ _ 2 (by ring)]
    ring
  · simp only [Finset.sum_range_succ, Finset.sum_range_zero]
    push_cast
    ring_nf
    rw [show Real.cos (Real.pi * (9/8)) = -Real.cos (Real.pi * (1/8)) from
        cosRedPiAdd _ _ 0 (by ring),
      show Real.cos (Real.pi * (15/8)) = Real.cos (Real.pi * (1/8)) from
        cosRedNeg _ _ 1 (by ring),
      show Real.cos (Real.pi * (21/8)) = -Real.cos (Real.pi * (3/8)) from
        cosRedPiSub _ _ 1 (by ring),
      show Real.cos (Real.pi * (27/8)) = -Real.cos (Real.pi * (3/8)) from
        cosRedPiAdd _ _ 1 (by ring),
      show Real.cos (Real.pi * (33/8)) = Real.cos (Real.pi * (1/8)) from
        cosRedPos _ _ 2 (by ring),
      show Real.cos (Real.pi * (39/8)) = -Real.cos (Real.pi * (1/8)) from
        cosRedPiSub _ _ 2 (by ring),
      show Real.cos (Real.pi * (45/8)) = Real.cos (Real.pi * (3/8)) from
        cosRedNeg _ _ 3 (by ring)]
    ring
  · simp only [Finset.sum_range_succ, Finset.sum_range_zero]
    push_cast
    ring_nf
    rw [show Real.cos (Real.pi * (21/16)) = -Real.cos (Real.pi * (5/16)) from
        cosRedPiAdd _ _ 0 (by ring),
      show Real.cos (Real.pi * (35/16)) = Real.cos (Real.pi * (3/16)) from
        cosRedPos _ _ 1 (by ring),
      show Real.cos (Real.pi * (49/16)) = -Real.cos (Real.pi * (1/16)) from
        cosRedPiAdd _ _ 1 (by ring),
      show Real.cos (Real.pi * (63/16)) = Real.cos (Real.pi * (1/16)) from
        cosRedNeg _ _ 2 (by ring),
      show Real.cos (Real.pi * (77/16)) = -Real.cos (Real.pi * (3/16)) from
        cosRedPiSub _ _ 2 (by ring),
      show Real.cos (Real.pi * (91/16)) = Real.cos (Real.pi * (5/16)) from
        cosRedNeg _ _ 3 (by ring),
      show Real.cos (Real.pi * (105/16)) = -Real.cos (Real.pi * (7/16)) from
        cosRedPiSub _ _ 3 (by ring)]
    ring

/-- On a constant block the double DCT sum factors into the product of
the two 1-D cosine sums. -/
theorem dct_uniform_split (k : ℝ) (v u : ℕ) :
    perform_DCT_on_block (fun _ _ => k) v u =
      1/4 * alpha v * alpha u * k *
        (∑ x ∈ Finset.range 8, Real.cos ((2 * (x:ℝ) + 1) * (u:ℝ) * Real.pi / 16)) *
        (∑ y ∈ Finset.range 8, Real.cos ((2 * (y:ℝ) + 1) * (v:ℝ) * Real.pi / 16)) := by
  unfold perform_DCT_on_block
  simp only [← Finset.sum_mul, ← Finset.mul_sum]
  ring

/-- The DCT of the all-zero block is the all-zero frequency block. -/
theorem dct_zero_block (v u : ℕ) :
    perform_DCT_on_block (fun _ _ => (0:ℝ)) v u = 0 := by
  unfold perform_DCT_on_block
  simp

/-- The square of the DC normalisation factor is 1/2. -/
theorem alpha0_mul_alpha0 : alpha 0 * alpha 0 = 1/2 := by
  unfold alpha
  rw [if_pos rfl, div_mul_div_comm, one_mul, Real.mul_self_sqrt] <;> norm_num

/-- The DC coefficient of the uniform block of value `k` is `8 * k`. -/
theorem dct_uniform_dc (k : ℝ) :
    perform_DCT_on_block (fun _ _ => k) 0 0 = 8 * k := by
  rw [dct_uniform_split]
  have hsum : ∑ x ∈ Finset.range 8,
      Real.cos ((2 * (x:ℝ) + 1) * ((0:ℕ):ℝ) * Real.pi / 16) = 8 := by
    norm_num
  rw [hsum]
  have h22 : (1 / Real.sqrt 2) * (1 / Real.sqrt 2) = 1/2 := by
    rw [div_mul_div_comm, one_mul, Real.mul_self_sqrt] <;> norm_num
  unfold alpha
  rw [if_pos rfl]
  calc 1/4 * (1 / Real.sqrt 2) * (1 / Real.sqrt 2) * k * 8 * 8
      = ((1 / Real.sqrt 2) * (1 / Real.sqrt 2)) * (16 * k) := by ring
    _ = 1/2 * (16 * k) := by rw [h22]
    _ = 8 * k := by ring

/-- Every non-DC coefficient of the DCT of a uniform block vanishes. -/
theorem dct_uniform_ac (k : ℝ) {v u : ℕ} (hv : v < 8) (hu : u < 8)
    (h : ¬(v = 0 ∧ u = 0)) :
    perform_DCT_on_block (fun _ _ => k) v u = 0 := by
  rw [dct_uniform_split]
  rcases Nat.eq_zero_or_pos u with hu0 | hup
  · have hv0 : v ≠ 0 := by
      intro hv0
      exact h ⟨hv0, hu0⟩
    have hz := cos_sum_eq_zero (u := v) (by omega) (by omega)
    rw [hz]
    ring
  · have hz := cos_sum_eq_zero (u := u) (by omega) (by omega)
    rw [hz]
    ring

/-! ## The claims -/

/-- Claim C1 (refuted as stated): on the AC sequence of 15 zeros followed
by magnitude 5, the encoder does NOT emit the pair (run=15, size=3) with
no overflow pair (byte stream `[int8(15*16+3), 5, 0]`), and on 16 zeros
followed by magnitude 5 it does NOT emit overflow pair (15,0) followed by
(run=0, size=3) (byte stream `[int8(15*16), 0, int8(3), 5, 0]`).  The
overflow triggers at the 15th zero already, the overflow pair carries the
current (reset) run length, and size is the popcount 2 of 5, so the real
outputs are `[0,0,2,5,0]` and `[16,0,18,5,0]`.  The quantization tables'
premises of the claim (entries at least 1) are irrelevant here since the
encoder takes the quantized sequence directly. -/
theorem claim_C1_counterexample :
    apply_Huffman_encoding
        (zigZagUnflatten (0 :: (List.replicate 15 0 ++ 5 :: List.replicate 47 0))) =
      some (0, [0, 0, 2, 5, 0]) ∧
    ([(0:ℤ), 0, 2, 5, 0] ≠ [int8ofInt (15 * 16 + 3), 5, 0]) ∧
    apply_Huffman_encoding
        (zigZagUnflatten (0 :: (List.replicate 16 0 ++ 5 :: List.replicate 46 0))) =
      some (0, [16, 0, 18, 5, 0]) ∧
    ([(16:ℤ), 0, 18, 5, 0] ≠ [int8ofInt (15 * 16), 0, int8ofInt (0 * 16 + 3), 5, 0]) :=
  ⟨by decide, by decide, by decide, by decide⟩

/-- Claim C1 (amended): on 15 zeros followed by magnitude 5 the encoder
emits one overflow pair (run=0, size=0) with amplitude 0 — the overflow
counter was incremented at the 15th zero, which also reset the run — and
then the pair (run=0, size=2) with amplitude 5 (bytes `[0,0,2,5,0]` with
the end-of-block 0); on 16 zeros followed by magnitude 5 it emits one
overflow pair (run=1, size=0) with amplitude 0 and then (run=1, size=2)
with amplitude 5 (bytes `[16,0,18,5,0]`). -/
theorem claim_C1_amended :
    apply_Huffman_encoding
        (zigZagUnflatten (0 :: (List.replicate 15 0 ++ 5 :: List.replicate 47 0))) =
      some (0, [int8ofInt (0 * 16), 0, int8ofInt (0 * 16 + 2), 5, 0]) ∧
    apply_Huffman_encoding
        (zigZagUnflatten (0 :: (List.replicate 16 0 ++ 5 :: List.replicate 46 0))) =
      some (0, [int8ofInt (1 * 16), 0, int8ofInt (1 * 16 + 2), 5, 0]) :=
  ⟨by decide, by decide⟩

/-- Claim C2 (refuted as stated): for the nonzero AC amplitude -128 the
encoder does not emit a size field equal to popcount(|-128|) = 1 — it
emits nothing at all, because `np.abs` wraps -128 to -128 and the
bit-count loop on a negative int8 never terminates (`sizeLoop_neg`,
`sizeLoop_diverges_neg128`); the `none` below is the divergence of the
source on this input. -/
theorem claim_C2_counterexample :
    npAbs8 (-128) = -128 ∧
    acSize (-128) = none ∧
    apply_Huffman_encoding (zigZagUnflatten (0 :: (-128) :: List.replicate 62 0)) =
      none :=
  ⟨by decide, by decide, by decide⟩

/-- Claim C2 (amended): for every nonzero AC amplitude other than -128,
the emitted symbol-1 byte carries in its low 4 bits the number of set
bits (popcount) of the magnitude — not the conventional bit-length — and
the encoder step appends exactly the pending overflow pairs followed by
this symbol pair; at amplitude -128 the bit-count loop diverges. -/
theorem claim_C2_amended : ∀ (st : EncState) (a : ℤ),
    -128 < a → a ≤ 127 → a ≠ 0 →
    huffStep st a = some ⟨0, st.overflow,
      st.output ++ overflowBytes st.runlength st.overflow ++
        [int8ofInt (int8ofInt (st.runlength * 16) + bitCount a.natAbs), int8ofInt a]⟩ ∧
    int8ofInt (int8ofInt (st.runlength * 16) + bitCount a.natAbs) % 16 =
      bitCount a.natAbs := by
  intro st a h1 h2 h0
  have hsz : bitCount a.natAbs ≤ 7 := bitCount_le_seven (by omega)
  exact ⟨huffStep_nonzero st a _ h0 (acSize_eq_bitCount h1 h2),
    symbol1_low_nibble st.runlength (bitCount a.natAbs) (by omega)⟩

/-- Witness for C2: at run length 2 with one pending overflow pair,
amplitude 5 emits bytes `[32, 0, 34, 5]` and `34 % 16 = 2 = popcount 5`. -/
theorem claim_C2_witness :
    huffStep ⟨2, 1, []⟩ 5 = some ⟨0, 1, [32, 0, 34, 5]⟩ ∧ (34:ℤ) % 16 = 2 := by
  have h := claim_C2_amended ⟨2, 1, []⟩ 5 (by norm_num) (by norm_num) (by norm_num)
  have ha : acSize 5 = some (bitCount (Int.natAbs 5)) :=
    acSize_eq_bitCount (by norm_num) (by norm_num)
  have hb : acSize 5 = some 2 := by decide
  rw [hb] at ha
  have hc : bitCount (Int.natAbs 5) = 2 := (Option.some.inj ha).symm
  constructor
  · rw [h.1, hc]
    decide
  · decide

/-- Claim C3 (confirmed): a 64-length sequence whose 63 AC entries are
all zero encodes to exactly the end-of-block byte 0 with no overflow
pair emitted, and the DC value is returned verbatim.  (The overflow
counter does reach 4 internally — second conjunct — but nothing is
emitted since no nonzero amplitude is ever met.) -/
theorem claim_C3 : ∀ dc : ℤ, -128 ≤ dc → dc ≤ 127 →
    apply_Huffman_encoding (fun r c => if r = 0 ∧ c = 0 then dc else 0) =
      some (dc, [0]) ∧
    encodeLoop ⟨0, 0, []⟩ (List.replicate 63 0) = some ⟨3, 4, []⟩ := by
  intro dc h1 h2
  have henc : encodeLoop ⟨0, 0, []⟩ (List.replicate 63 (0:ℤ)) = some ⟨3, 4, []⟩ := by
    decide
  refine ⟨?_, henc⟩
  unfold apply_Huffman_encoding
  have hmem : ∀ p ∈ zig_zag_flat.drop 1, ¬(p.1 = 0 ∧ p.2 = 0) := by decide
  have hmap : (zig_zag_flat.drop 1).map
      (fun p => if p.1 = 0 ∧ p.2 = 0 then dc else (0:ℤ)) = List.replicate 63 0 := by
    refine List.eq_replicate_iff.mpr ⟨?_, ?_⟩
    · rw [List.length_map, List.length_drop, zig_zag_flat_length]
    · intro b hb
      obtain ⟨p, hp, rfl⟩ := List.mem_map.mp hb
      exact if_neg (hmem p hp)
  rw [hmap, henc]
  show some (int8ofInt (if (0:ℕ) = 0 ∧ (0:ℕ) = 0 then dc else 0), [(0:ℤ)]) =
    some (dc, [0])
  rw [if_pos ⟨rfl, rfl⟩, int8ofInt_eq_self h1 h2]

/-- Witness for C3 at DC value -77. -/
theorem claim_C3_witness :
    apply_Huffman_encoding (fun r c => if r = 0 ∧ c = 0 then (-77:ℤ) else 0) =
      some (-77, [0]) :=
  (claim_C3 (-77) (by norm_num) (by norm_num)).1

/-- Claim C4 (confirmed): the zig-zag sequence is a bijection between the
64 cells and positions 0..63 (64 pairwise distinct entries, and reading
the sequence back at the position of any cell returns that cell), it
starts at (0,0) and ends at (7,7), it traverses anti-diagonals in
alternating directions (`specDiag` is the spec-side description), and
flattening any 8x8 integer block then applying the inverse permutation
reproduces the block exactly. -/
theorem claim_C4 :
    zig_zag_flat.length = 64 ∧
    zig_zag_flat.Nodup ∧
    (∀ r c : Fin 8, zig_zag_flat[zigZagPos r.val c.val]? = some (r.val, c.val)) ∧
    zig_zag_flat.getD 0 (9, 9) = (0, 0) ∧
    zig_zag_flat.getD 63 (9, 9) = (7, 7) ∧
    zig_zag_index = (List.range 15).map specDiag ∧
    (∀ (B : ℕ → ℕ → ℤ) (r c : Fin 8), zigZagUnflatten (zigZagApply B) r c = B r c) :=
  ⟨zig_zag_flat_length, zig_zag_flat_nodup, zig_zag_flat_get, by decide, by decide,
    by decide, zigZag_roundtrip⟩

/-- Claim C5 (refuted as stated): the quantizer does not round half away
from zero.  With G uniformly 8 and Q uniformly 16 (all entries at least
1), the quotient is 1/2 exactly; `np.round` (half to even) gives 0 while
round-half-away-from-zero gives 1. -/
theorem claim_C5_counterexample :
    perform_quantization_on_block (fun _ _ => 8) (fun _ _ => 16) 0 0 = 0 ∧
    roundHalfAwayFromZero ((8:ℚ) / 16) = 1 ∧
    perform_quantization_on_block (fun _ _ => 8) (fun _ _ => 16) 0 0 ≠
      roundHalfAwayFromZero ((8:ℚ) / 16) := by
  have h1 : perform_quantization_on_block (fun _ _ => 8) (fun _ _ => 16) 0 0 = 0 := by
    unfold perform_quantization_on_block roundHalfEven int8ofInt
    norm_num
  have h2 : roundHalfAwayFromZero ((8:ℚ) / 16) = 1 := by
    unfold roundHalfAwayFromZero
    norm_num
  exact ⟨h1, h2, by rw [h1, h2]; norm_num⟩

/-- Claim C5 (amended): each quantizer output cell is the int8 wrap of
`np.round(G/Q)` where the rounding is round-half-to-even: it agrees with
round-half-away-from-zero whenever the quotient is not an exact tie, and
at an exact tie it returns the even neighbour. -/
theorem claim_C5_amended : ∀ (G Q : ℕ → ℕ → ℚ) (v u : ℕ),
    perform_quantization_on_block G Q v u =
      int8ofInt (roundHalfEven (G v u / Q v u)) ∧
    (G v u / Q v u - ⌊G v u / Q v u⌋ = 1/2 → 2 ∣ roundHalfEven (G v u / Q v u)) ∧
    (G v u / Q v u - ⌊G v u / Q v u⌋ ≠ 1/2 →
      roundHalfEven (G v u / Q v u) = roundHalfAwayFromZero (G v u / Q v u)) :=
  fun G Q v u =>
    ⟨rfl, roundHalfEven_even_of_tie, roundHalfEven_eq_away_of_ne_tie⟩

/-- Witness for C5: a tie quotient 1/2 rounds to the even integer 0, and
the untied quotient 3/10 rounds the same under both roundings. -/
theorem claim_C5_witness :
    2 ∣ roundHalfEven ((1:ℚ) / 2) ∧
    roundHalfEven ((3:ℚ) / 10) = roundHalfAwayFromZero ((3:ℚ) / 10) := by
  constructor
  · exact (claim_C5_amended (fun _ _ => 1) (fun _ _ => 2) 0 0).2.1 (by norm_num)
  · exact (claim_C5_amended (fun _ _ => 3) (fun _ _ => 10) 0 0).2.2 (by norm_num)

/-- Claim C6 (refuted as stated): the rounding contract
`|G/Q - B| < 1` fails on cells whose rounded quotient overflows the int8
range, because the `np.int8` cast wraps.  With G uniformly 10000 and Q
uniformly 1 the quotient is 10000 but the stored cell is 16. -/
theorem claim_C6_counterexample :
    perform_quantization_on_block (fun _ _ => 10000) (fun _ _ => 1) 0 0 = 16 ∧
    ¬(|(10000:ℚ) / 1 -
        (perform_quantization_on_block (fun _ _ => 10000) (fun _ _ => 1) 0 0 : ℚ)| < 1) := by
  have h1 : perform_quantization_on_block (fun _ _ => 10000) (fun _ _ => 1) 0 0 = 16 := by
    unfold perform_quantization_on_block roundHalfEven int8ofInt
    norm_num
  refine ⟨h1, ?_⟩
  rw [h1]
  norm_num

/-- Claim C6 (amended): on every cell whose rounded quotient lies in the
int8 range [-128, 127] the quantizer satisfies the rounding contract
`|G/Q - B| < 1` (indeed the distance is at most 1/2). -/
theorem claim_C6_amended : ∀ (G Q : ℕ → ℕ → ℚ) (v u : ℕ),
    1 ≤ Q v u →
    -128 ≤ roundHalfEven (G v u / Q v u) →
    roundHalfEven (G v u / Q v u) ≤ 127 →
    |G v u / Q v u - (perform_quantization_on_block G Q v u : ℚ)| < 1 := by
  intro G Q v u hQ h1 h2
  unfold perform_quantization_on_block
  rw [int8ofInt_eq_self h1 h2]
  have := roundHalfEven_close (G v u / Q v u)
  linarith

/-- Witness for C6 at the block G = Q = 1 (quotient 1, in range). -/
theorem claim_C6_witness :
    |(1:ℚ) / 1 -
      (perform_quantization_on_block (fun _ _ => 1) (fun _ _ => 1) 0 0 : ℚ)| < 1 := by
  have hr : roundHalfEven ((1:ℚ) / 1) = 1 := by
    unfold roundHalfEven
    norm_num
  exact claim_C6_amended (fun _ _ => 1) (fun _ _ => 1) 0 0 (by norm_num)
    (by rw [hr]; norm_num) (by rw [hr]; norm_num)

/-- Claim C7 (confirmed): for input components in [0, 255] all three
colour-transform outputs, truncated toward zero, lie in [0, 255], and
the uint8 conversion therefore never wraps (the wrapped value equals the
truncated value). -/
theorem claim_C7 : ∀ c1 c2 c3 : ℤ,
    0 ≤ c1 → c1 ≤ 255 → 0 ≤ c2 → c2 ≤ 255 → 0 ≤ c3 → c3 ≤ 255 →
    (0 ≤ truncFloat (Yraw c1 c2 c3) ∧ truncFloat (Yraw c1 c2 c3) ≤ 255 ∧
      dataYCbCr_Y c1 c2 c3 = truncFloat (Yraw c1 c2 c3)) ∧
    (0 ≤ truncFloat (Cbraw c1 c2 c3) ∧ truncFloat (Cbraw c1 c2 c3) ≤ 255 ∧
      dataYCbCr_Cb c1 c2 c3 = truncFloat (Cbraw c1 c2 c3)) ∧
    (0 ≤ truncFloat (Crraw c1 c2 c3) ∧ truncFloat (Crraw c1 c2 c3) ≤ 255 ∧
      dataYCbCr_Cr c1 c2 c3 = truncFloat (Crraw c1 c2 c3)) := by
  intro c1 c2 c3 h1l h1u h2l h2u h3l h3u
  have q1l : (0:ℚ) ≤ (c1:ℚ) := by exact_mod_cast h1l
  have q1u : (c1:ℚ) ≤ 255 := by exact_mod_cast h1u
  have q2l : (0:ℚ) ≤ (c2:ℚ) := by exact_mod_cast h2l
  have q2u : (c2:ℚ) ≤ 255 := by exact_mod_cast h2u
  have q3l : (0:ℚ) ≤ (c3:ℚ) := by exact_mod_cast h3l
  have q3u : (c3:ℚ) ≤ 255 := by exact_mod_cast h3u
  have hY : 0 ≤ Yraw c1 c2 c3 ∧ Yraw c1 c2 c3 < 256 := by
    unfold Yraw
    constructor <;> nlinarith
  have hCb : 0 ≤ Cbraw c1 c2 c3 ∧ Cbraw c1 c2 c3 < 256 := by
    unfold Cbraw
    constructor <;> nlinarith
  have hCr : 0 ≤ Crraw c1 c2 c3 ∧ Crraw c1 c2 c3 < 256 := by
    unfold Crraw
    constructor <;> nlinarith
  exact ⟨chanProps hY.1 hY.2, chanProps hCb.1 hCb.2, chanProps hCr.1 hCr.2⟩

/-- Witness for C7 at the pure-white pixel (255, 255, 255). -/
theorem claim_C7_witness :
    0 ≤ truncFloat (Yraw 255 255 255) ∧ truncFloat (Cbraw 255 255 255) ≤ 255 ∧
    dataYCbCr_Cr 255 255 255 = truncFloat (Crraw 255 255 255) := by
  have h := claim_C7 255 255 255 (by norm_num) (by norm_num) (by norm_num)
    (by norm_num) (by norm_num) (by norm_num)
  exact ⟨h.1.1, h.2.1.2.1, h.2.2.2.2⟩

/-- Claim C8 (refuted as stated): the DC coefficient of the uniform block
of value 1 is 8, while the claimed value `k * 8 * alpha(0) * alpha(0)` is
4; the relative error is 1, far above the allowed 1e-6. -/
theorem claim_C8_counterexample :
    perform_DCT_on_block (fun _ _ => (1:ℝ)) 0 0 = 8 ∧
    ¬(|perform_DCT_on_block (fun _ _ => (1:ℝ)) 0 0 - 1 * 8 * alpha 0 * alpha 0| ≤
      1e-6 * |1 * 8 * alpha 0 * alpha 0|) := by
  have h8 : perform_DCT_on_block (fun _ _ => (1:ℝ)) 0 0 = 8 := by
    rw [dct_uniform_dc]
    norm_num
  have h4 : (1:ℝ) * 8 * alpha 0 * alpha 0 = 4 := by
    rw [show (1:ℝ) * 8 * alpha 0 * alpha 0 = 8 * (alpha 0 * alpha 0) from by ring,
      alpha0_mul_alpha0]
    norm_num
  refine ⟨h8, ?_⟩
  rw [h8, h4]
  rw [show |(8:ℝ) - 4| = 4 from by rw [abs_of_nonneg] <;> norm_num,
    show |(4:ℝ)| = 4 from by rw [abs_of_nonneg] <;> norm_num]
  norm_num

/-- Claim C8 (amended): the DCT maps the all-zero block to the all-zero
frequency block, and maps the uniform block of value k to a block whose
only possibly-nonzero entry is the DC term (0,0), equal to `8 * k`
exactly (that is, `k * 16 * alpha(0) * alpha(0)`, not
`k * 8 * alpha(0) * alpha(0)`). -/
theorem claim_C8_amended (k : ℝ) :
    (∀ v u : ℕ, v < 8 → u < 8 → perform_DCT_on_block (fun _ _ => (0:ℝ)) v u = 0) ∧
    perform_DCT_on_block (fun _ _ => k) 0 0 = 8 * k ∧
    (∀ v u : ℕ, v < 8 → u < 8 → ¬(v = 0 ∧ u = 0) →
      perform_DCT_on_block (fun _ _ => k) v u = 0) :=
  ⟨fun v u _ _ => dct_zero_block v u, dct_uniform_dc k,
    fun v u hv hu h => dct_uniform_ac k hv hu h⟩

/-- Witness for C8 at k = 2 and cells (2,3), (0,0), (0,1). -/
theorem claim_C8_witness :
    perform_DCT_on_block (fun _ _ => (0:ℝ)) 2 3 = 0 ∧
    perform_DCT_on_block (fun _ _ => (2:ℝ)) 0 0 = 8 * 2 ∧
    perform_DCT_on_block (fun _ _ => (2:ℝ)) 0 1 = 0 :=
  ⟨(claim_C8_amended 0).1 2 3 (by norm_num) (by norm_num),
    (claim_C8_amended 2).2.1,
    (claim_C8_amended 2).2.2 0 1 (by norm_num) (by norm_num) (by simp)⟩

/-- Claim C9 (confirmed): the overflow counter is never reset — every
step only preserves or increments it — it is incremented on each 15th
consecutive zero, and on every nonzero coefficient all accumulated
overflow pairs are emitted again before the symbol pair.  Concretely, on
an AC sequence of 15 zeros, 5, 5, the single accumulated overflow pair
is emitted before both nonzero coefficients: bytes
`[0,0, 2,5, 0,0, 2,5, 0]`. -/
theorem claim_C9 :
    (∀ (st : EncState) (a : ℤ) (st' : EncState),
      huffStep st a = some st' → st.overflow ≤ st'.overflow) ∧
    (∀ (st : EncState), st.runlength + 1 = 15 →
      huffStep st 0 = some ⟨0, st.overflow + 1, st.output⟩) ∧
    (∀ (st : EncState) (a : ℤ) (s : ℕ), a ≠ 0 → acSize a = some s →
      huffStep st a = some ⟨0, st.overflow,
        st.output ++ overflowBytes st.runlength st.overflow ++
          [int8ofInt (int8ofInt (st.runlength * 16) + s), int8ofInt a]⟩) ∧
    apply_Huffman_encoding
        (zigZagUnflatten (0 :: (List.replicate 15 0 ++ 5 :: 5 :: List.replicate 46 0))) =
      some (0, [0, 0, 2, 5, 0, 0, 2, 5, 0]) :=
  ⟨huffStep_overflow_mono, huffStep_fifteenth_zero, huffStep_nonzero, by decide⟩

/-- Witness for C9: one step keeps the counter (0 to 5 is a re-emitting
step), one step increments it at the 15th zero. -/
theorem claim_C9_witness :
    huffStep ⟨0, 1, []⟩ 5 = some ⟨0, 1, [0, 0, 2, 5]⟩ ∧
    huffStep ⟨14, 0, []⟩ 0 = some ⟨0, 1, []⟩ ∧ (1:ℕ) ≤ 1 := by
  refine ⟨?_, ?_, ?_⟩
  · have h := claim_C9.2.2.1 ⟨0, 1, []⟩ 5 2 (by norm_num) (by decide)
    rw [h]
    decide
  · exact claim_C9.2.1 ⟨14, 0, []⟩ rfl
  · exact claim_C9.1 ⟨3, 1, []⟩ 0 ⟨4, 1, []⟩ (by decide)

/-- Claim C10 (confirmed): every emitted symbol-1 byte is the signed
8-bit two's-complement reading of `(run*16 + size) mod 256` — wrapping
the shifted run length first changes nothing — and any packed value with
run at least 8 (hence at least 128 before the wrap) is stored negative.
Concretely, a run of 8 zeros before amplitude 1 stores symbol-1 as -127,
not 129. -/
theorem claim_C10 :
    (∀ x : ℤ, int8ofInt x = if x % 256 < 128 then x % 256 else x % 256 - 256) ∧
    (∀ run s : ℤ, int8ofInt (int8ofInt (run * 16) + s) = int8ofInt (run * 16 + s)) ∧
    (∀ run s : ℤ, 8 ≤ run → 0 ≤ s → run * 16 + s < 256 →
      int8ofInt (run * 16 + s) < 0) ∧
    apply_Huffman_encoding
        (zigZagUnflatten (0 :: (List.replicate 8 0 ++ 1 :: List.replicate 54 0))) =
      some (0, [-127, 1, 0]) :=
  ⟨int8ofInt_twosComplement, fun run s => int8ofInt_add_left (run * 16) s,
    fun run s h1 h2 h3 => by unfold int8ofInt; omega, by decide⟩

/-- Witness for C10 at run 8, size 1: the stored byte 129 mod 256 read as
int8 is negative. -/
theorem claim_C10_witness : int8ofInt (8 * 16 + 1) < 0 :=
  claim_C10.2.2.1 8 1 (by norm_num) (by norm_num) (by norm_num)

end JPEG
